import Mathlib

/-!
Verification of the Lido council daemon core against its specification.

The TypeScript services are shallowly embedded: pure methods become Lean
functions, stateful services become explicit state passing, JavaScript
numbers become `Nat`, strings (hex-encoded hashes, pubkeys, withdrawal
credentials) become `String`, and external collaborators (the keys-index
HTTP client, the EL RPC, the BLS verifier, keccak/ECDSA primitives) become
function parameters.
-/

/-- A verified deposit event, as decoded from the deposit contract logs
(`VerifiedDepositEvent` in the source).  `valid` is the cached BLS
verification result. -/
structure VerifiedDepositEvent where
  pubkey : String
  wc : String
  amount : String
  signature : String
  blockNumber : Nat
  logIndex : Nat
  blockHash : String
  depositCount : Nat
  depositDataRoot : String
  valid : Bool
  deriving Repr, DecidableEq

/-- A registry key from the keys-index (`RegistryKey` in the source). -/
structure RegistryKey where
  key : String
  depositSignature : String
  operatorIndex : Nat
  used : Bool
  index : Nat
  moduleAddress : String
  deriving Repr, DecidableEq

/-- Result shape of `getAllDepositedEvents`
(`VerifiedDepositedEventGroup` in the source). -/
structure VerifiedDepositedEventGroup where
  events : List VerifiedDepositEvent
  startBlock : Nat
  endBlock : Nat
  isValid : Bool
  deriving Repr, DecidableEq

/-- Per-cycle block data (`BlockData` in the source), restricted to the
fields the guard services read. -/
structure BlockData where
  blockNumber : Nat
  blockHash : String
  depositRoot : String
  depositedEvents : VerifiedDepositedEventGroup
  guardianAddress : String
  guardianIndex : Nat
  lidoWC : String
  deriving Repr, DecidableEq

/-- Per-cycle, per-module data (`StakingModuleData` in the source),
restricted to the fields the guard services read. -/
structure StakingModuleData where
  nonce : Nat
  stakingModuleId : Nat
  blockHash : String
  lastChangedBlockHash : String
  vettedUnusedKeys : List RegistryKey
  deriving Repr, DecidableEq

/-- `StakingModuleGuardService.isFirstEventEarlier`: same-block compares
`logIndex`, otherwise compares `blockNumber`. -/
def isFirstEventEarlier (firstEvent secondEvent : VerifiedDepositEvent) : Bool :=
  let isSameBlock := firstEvent.blockNumber == secondEvent.blockNumber
  if isSameBlock then
    firstEvent.logIndex < secondEvent.logIndex
  else
    firstEvent.blockNumber < secondEvent.blockNumber

/-- The filter selecting potential Lido deposit events inside
`getHistoricalFrontRun`: `wc === lidoWC && valid`. -/
def isPotentialLidoDepositEvent (lidoWC : String) (e : VerifiedDepositEvent) : Bool :=
  e.wc == lidoWC && e.valid

/-- One step of building `potentialLidoDepositsKeysMap`: the JavaScript
object update in the `forEach` of `getHistoricalFrontRun`.  If an entry for
the pubkey exists and is earlier than the incoming event, keep it;
otherwise store the incoming event. -/
def updatePotentialLidoMap (m : String → Option VerifiedDepositEvent)
    (event : VerifiedDepositEvent) : String → Option VerifiedDepositEvent :=
  match m event.pubkey with
  | some existed =>
    if isFirstEventEarlier existed event then m
    else fun k => if k == event.pubkey then some event else m k
  | none => fun k => if k == event.pubkey then some event else m k

/-- `potentialLidoDepositsKeysMap` of `getHistoricalFrontRun`: the map from
pubkey to the retained potential Lido deposit event. -/
def potentialLidoDepositsKeysMap (lidoWC : String)
    (events : List VerifiedDepositEvent) : String → Option VerifiedDepositEvent :=
  (events.filter (isPotentialLidoDepositEvent lidoWC)).foldl
    updatePotentialLidoMap (fun _ => none)

/-- The `frontRunnedDepositEvents` list computed by
`getHistoricalFrontRun`: deposits sharing a pubkey with a retained Lido
deposit, with a non-Lido `wc`, BLS-valid, and earlier than the retained
Lido deposit.  The source throws `expected event not found` in the `none`
branch of the last filter; that branch is unreachable (see
`frontRunned_lookup_isSome`), so it is embedded as `false`. -/
def frontRunnedDepositEvents (lidoWC : String)
    (events : List VerifiedDepositEvent) : List VerifiedDepositEvent :=
  let m := potentialLidoDepositsKeysMap lidoWC events
  let duplicatedDepositEvents :=
    events.filter (fun e => (m e.pubkey).isSome && e.wc != lidoWC)
  let validDuplicatedDepositEvents := duplicatedDepositEvents.filter (·.valid)
  validDuplicatedDepositEvents.filter (fun e =>
    match m e.pubkey with
    | some sameKeyLidoDeposit => isFirstEventEarlier e sameKeyLidoDeposit
    | none => false)

/-- The `frontRunnedDepositKeys` list of `getHistoricalFrontRun`. -/
def frontRunnedDepositKeys (lidoWC : String)
    (events : List VerifiedDepositEvent) : List String :=
  (frontRunnedDepositEvents lidoWC events).map (·.pubkey)

/-- `StakingModuleGuardService.getHistoricalFrontRun`.  The keys-index
query `stakingRouterService.getKeysByPubkeys` (POST `/v1/keys/find`) is
passed as a function returning the response `data` list. -/
def getHistoricalFrontRun (getKeysByPubkeys : List String → List RegistryKey)
    (blockData : BlockData) : Bool :=
  let keys := frontRunnedDepositKeys blockData.lidoWC blockData.depositedEvents.events
  if keys.isEmpty then
    false
  else
    (getKeysByPubkeys keys).length != 0

theorem isFirstEventEarlier_iff (a b : VerifiedDepositEvent) :
    isFirstEventEarlier a b = true ↔
      a.blockNumber < b.blockNumber ∨
        (a.blockNumber = b.blockNumber ∧ a.logIndex < b.logIndex) := by
  unfold isFirstEventEarlier
  by_cases h : a.blockNumber = b.blockNumber <;> simp [h]

theorem isFirstEventEarlier_irrefl (a : VerifiedDepositEvent) :
    isFirstEventEarlier a a = false := by
  rw [← Bool.not_eq_true, isFirstEventEarlier_iff]
  omega

theorem isFirstEventEarlier_asymm {a b : VerifiedDepositEvent}
    (h : isFirstEventEarlier a b = true) : isFirstEventEarlier b a = false := by
  rw [isFirstEventEarlier_iff] at h
  rw [← Bool.not_eq_true, isFirstEventEarlier_iff]
  omega

theorem isFirstEventEarlier_false_trans {a b c : VerifiedDepositEvent}
    (h1 : isFirstEventEarlier a b = false)
    (h2 : isFirstEventEarlier b c = false) :
    isFirstEventEarlier a c = false := by
  rw [← Bool.not_eq_true, isFirstEventEarlier_iff] at h1 h2 ⊢
  omega

theorem isFirstEventEarlier_lt_of_lt_of_not_lt {a b c : VerifiedDepositEvent}
    (h1 : isFirstEventEarlier a b = true)
    (h2 : isFirstEventEarlier c b = false) :
    isFirstEventEarlier a c = true := by
  rw [isFirstEventEarlier_iff] at h1 ⊢
  rw [← Bool.not_eq_true, isFirstEventEarlier_iff] at h2
  omega

/-- Invariant of the object built by the `forEach` over potential Lido
deposit events in `getHistoricalFrontRun`: relative to the list `done` of
already-processed events, each stored entry is a processed event with the
matching pubkey, and no processed event with the same pubkey is strictly
earlier than it; an absent entry means no processed event has that pubkey. -/
def LidoMapInv (done : List VerifiedDepositEvent)
    (m : String → Option VerifiedDepositEvent) : Prop :=
  ∀ p : String,
    (∀ v, m p = some v → v ∈ done ∧ v.pubkey = p ∧
        ∀ l ∈ done, l.pubkey = p → isFirstEventEarlier l v = false) ∧
    (m p = none → ∀ l ∈ done, l.pubkey ≠ p)

theorem lidoMapInv_insert (done : List VerifiedDepositEvent)
    (m : String → Option VerifiedDepositEvent) (e : VerifiedDepositEvent)
    (h : LidoMapInv done m)
    (hmin : ∀ l ∈ done, l.pubkey = e.pubkey → isFirstEventEarlier l e = false) :
    LidoMapInv (done ++ [e])
      (fun k => if k == e.pubkey then some e else m k) := by
  intro p
  constructor
  · intro w hw
    by_cases hp : p = e.pubkey
    · subst hp
      simp only [beq_self_eq_true, if_true, Option.some_inj] at hw
      cases hw
      refine ⟨by simp, rfl, ?_⟩
      intro l hl hlp
      rcases List.mem_append.mp hl with hl | hl
      · exact hmin l hl hlp
      · have hle : l = e := List.mem_singleton.mp hl
        rw [hle]
        exact isFirstEventEarlier_irrefl e
    · have hpb : (p == e.pubkey) = false := by simpa using hp
      simp only [hpb, Bool.false_eq_true, if_false] at hw
      obtain ⟨hw1, hw2, hw3⟩ := (h p).1 w hw
      refine ⟨List.mem_append.mpr (Or.inl hw1), hw2, ?_⟩
      intro l hl hlp
      rcases List.mem_append.mp hl with hl | hl
      · exact hw3 l hl hlp
      · have hle : l = e := List.mem_singleton.mp hl
        have hep : e.pubkey = p := by rw [← hle]; exact hlp
        exact absurd hep.symm hp
  · intro hnone l hl
    by_cases hp : p = e.pubkey
    · subst hp
      simp at hnone
    · have hpb : (p == e.pubkey) = false := by simpa using hp
      simp only [hpb, Bool.false_eq_true, if_false] at hnone
      rcases List.mem_append.mp hl with hl | hl
      · exact (h p).2 hnone l hl
      · have hle : l = e := List.mem_singleton.mp hl
        rw [hle]
        exact fun hc => hp hc.symm

theorem lidoMapInv_keep (done : List VerifiedDepositEvent)
    (m : String → Option VerifiedDepositEvent)
    (e v : VerifiedDepositEvent) (h : LidoMapInv done m)
    (hsome : m e.pubkey = some v)
    (hne : isFirstEventEarlier e v = false) :
    LidoMapInv (done ++ [e]) m := by
  intro p
  constructor
  · intro w hw
    obtain ⟨hw1, hw2, hw3⟩ := (h p).1 w hw
    refine ⟨List.mem_append.mpr (Or.inl hw1), hw2, ?_⟩
    intro l hl hlp
    rcases List.mem_append.mp hl with hl | hl
    · exact hw3 l hl hlp
    · have hle : l = e := List.mem_singleton.mp hl
      rw [hle] at hlp
      have hwp : m e.pubkey = some w := by rw [hlp]; exact hw
      have hvw : v = w := Option.some_inj.mp (hsome.symm.trans hwp)
      rw [hle, ← hvw]
      exact hne
  · intro hnone l hl
    rcases List.mem_append.mp hl with hl | hl
    · exact (h p).2 hnone l hl
    · have hle : l = e := List.mem_singleton.mp hl
      rw [hle]
      intro hc
      rw [hc, hnone] at hsome
      exact Option.noConfusion hsome

theorem updatePotentialLidoMap_none
    (m : String → Option VerifiedDepositEvent) (e : VerifiedDepositEvent)
    (h : m e.pubkey = none) :
    updatePotentialLidoMap m e =
      fun k => if k == e.pubkey then some e else m k := by
  unfold updatePotentialLidoMap
  rw [h]

theorem updatePotentialLidoMap_some
    (m : String → Option VerifiedDepositEvent) (e v : VerifiedDepositEvent)
    (h : m e.pubkey = some v) :
    updatePotentialLidoMap m e =
      if isFirstEventEarlier v e then m
      else fun k => if k == e.pubkey then some e else m k := by
  unfold updatePotentialLidoMap
  rw [h]

theorem lidoMapInv_update (done : List VerifiedDepositEvent)
    (m : String → Option VerifiedDepositEvent) (e : VerifiedDepositEvent)
    (h : LidoMapInv done m) :
    LidoMapInv (done ++ [e]) (updatePotentialLidoMap m e) := by
  rcases hme : m e.pubkey with _ | v
  · rw [updatePotentialLidoMap_none m e hme]
    exact lidoMapInv_insert done m e h
      (fun l hl hlp => absurd hlp ((h e.pubkey).2 hme l hl))
  · rw [updatePotentialLidoMap_some m e v hme]
    by_cases hearly : isFirstEventEarlier v e = true
    · rw [if_pos hearly]
      exact lidoMapInv_keep done m e v h hme (isFirstEventEarlier_asymm hearly)
    · rw [if_neg hearly]
      refine lidoMapInv_insert done m e h ?_
      intro l hl hlp
      have hlv := ((h e.pubkey).1 v hme).2.2 l hl hlp
      exact isFirstEventEarlier_false_trans hlv
        (Bool.eq_false_iff.mpr hearly)

theorem lidoMapInv_foldl (rest : List VerifiedDepositEvent) :
    ∀ (done : List VerifiedDepositEvent)
      (m : String → Option VerifiedDepositEvent),
      LidoMapInv done m →
        LidoMapInv (done ++ rest) (rest.foldl updatePotentialLidoMap m) := by
  induction rest with
  | nil => intro done m h; simpa using h
  | cons e rest ih =>
    intro done m h
    have h2 := ih (done ++ [e]) _ (lidoMapInv_update done m e h)
    simpa using h2

theorem lidoMapInv_potentialLidoDepositsKeysMap (lidoWC : String)
    (events : List VerifiedDepositEvent) :
    LidoMapInv (events.filter (isPotentialLidoDepositEvent lidoWC))
      (potentialLidoDepositsKeysMap lidoWC events) := by
  have hbase : LidoMapInv [] (fun _ => none) := by
    intro p
    exact ⟨fun v hv => Option.noConfusion hv, fun _ l hl => absurd hl (by simp)⟩
  simpa using
    lidoMapInv_foldl (events.filter (isPotentialLidoDepositEvent lidoWC))
      [] (fun _ => none) hbase

theorem mem_lidoFilter (lidoWC : String) (events : List VerifiedDepositEvent)
    (l : VerifiedDepositEvent) :
    l ∈ events.filter (isPotentialLidoDepositEvent lidoWC) ↔
      l ∈ events ∧ l.wc = lidoWC ∧ l.valid = true := by
  simp [List.mem_filter, isPotentialLidoDepositEvent, and_assoc]

/-- Characterisation of membership in `frontRunnedDepositEvents`: exactly
the BLS-valid deposits with a non-Lido withdrawal credential whose pubkey
also has a valid Lido-WC deposit and which precede every valid Lido-WC
deposit for that pubkey. -/
theorem mem_frontRunnedDepositEvents (lidoWC : String)
    (events : List VerifiedDepositEvent) (e : VerifiedDepositEvent) :
    e ∈ frontRunnedDepositEvents lidoWC events ↔
      e ∈ events ∧ e.valid = true ∧ e.wc ≠ lidoWC ∧
      (∃ l ∈ events, l.pubkey = e.pubkey ∧ l.wc = lidoWC ∧ l.valid = true) ∧
      (∀ l ∈ events, l.pubkey = e.pubkey → l.wc = lidoWC → l.valid = true →
        isFirstEventEarlier e l = true) := by
  have hinv := lidoMapInv_potentialLidoDepositsKeysMap lidoWC events
  constructor
  · intro hmem
    simp only [frontRunnedDepositEvents, List.mem_filter] at hmem
    obtain ⟨⟨⟨he, hdup⟩, hvalid⟩, hmatch⟩ := hmem
    rw [Bool.and_eq_true] at hdup
    obtain ⟨hsome, hne⟩ := hdup
    rcases hm : (potentialLidoDepositsKeysMap lidoWC events) e.pubkey with _ | v
    · rw [hm] at hsome
      simp at hsome
    · rw [hm] at hmatch
      have hev : isFirstEventEarlier e v = true := hmatch
      obtain ⟨hvf, hvp, hvmin⟩ := (hinv e.pubkey).1 v hm
      rw [mem_lidoFilter] at hvf
      refine ⟨he, hvalid, by simpa using hne,
        ⟨v, hvf.1, hvp, hvf.2.1, hvf.2.2⟩, ?_⟩
      intro l hl hlp hlwc hlv
      have hlf : l ∈ events.filter (isPotentialLidoDepositEvent lidoWC) :=
        (mem_lidoFilter lidoWC events l).mpr ⟨hl, hlwc, hlv⟩
      exact isFirstEventEarlier_lt_of_lt_of_not_lt hev (hvmin l hlf hlp)
  · rintro ⟨he, hvalid, hne, ⟨l0, hl0, hl0p, hl0wc, hl0v⟩, hall⟩
    rcases hm : (potentialLidoDepositsKeysMap lidoWC events) e.pubkey with _ | v
    · exfalso
      have hl0f : l0 ∈ events.filter (isPotentialLidoDepositEvent lidoWC) :=
        (mem_lidoFilter lidoWC events l0).mpr ⟨hl0, hl0wc, hl0v⟩
      exact (hinv e.pubkey).2 hm l0 hl0f hl0p
    · obtain ⟨hvf, hvp, _⟩ := (hinv e.pubkey).1 v hm
      rw [mem_lidoFilter] at hvf
      have hev : isFirstEventEarlier e v = true :=
        hall v hvf.1 hvp hvf.2.1 hvf.2.2
      simp only [frontRunnedDepositEvents, List.mem_filter]
      refine ⟨⟨⟨he, ?_⟩, hvalid⟩, ?_⟩
      · rw [Bool.and_eq_true]
        refine ⟨by rw [hm]; rfl, by simpa using hne⟩
      · rw [hm]
        exact hev

/-- The `none` branch of the final filter in `getHistoricalFrontRun`
(which throws `expected event not found` in the source) is unreachable:
every valid duplicated deposit event has an entry in the potential Lido
deposits map. -/
theorem frontRunned_lookup_isSome (lidoWC : String)
    (events : List VerifiedDepositEvent) (e : VerifiedDepositEvent)
    (hmem : e ∈ (events.filter (fun x =>
        ((potentialLidoDepositsKeysMap lidoWC events) x.pubkey).isSome &&
          x.wc != lidoWC)).filter (·.valid)) :
    ((potentialLidoDepositsKeysMap lidoWC events) e.pubkey).isSome = true := by
  rw [List.mem_filter, List.mem_filter, Bool.and_eq_true] at hmem
  exact hmem.1.2.1

theorem frontRunnedDepositKeys_eq_nil_iff (lidoWC : String)
    (events : List VerifiedDepositEvent) :
    frontRunnedDepositKeys lidoWC events = [] ↔
      ¬ ∃ e ∈ events, e.valid = true ∧ e.wc ≠ lidoWC ∧
        (∃ l ∈ events, l.pubkey = e.pubkey ∧ l.wc = lidoWC ∧ l.valid = true) ∧
        (∀ l ∈ events, l.pubkey = e.pubkey → l.wc = lidoWC → l.valid = true →
          isFirstEventEarlier e l = true) := by
  rw [frontRunnedDepositKeys, List.map_eq_nil_iff, List.eq_nil_iff_forall_not_mem]
  constructor
  · rintro hnone ⟨e, he, hcond⟩
    exact hnone e ((mem_frontRunnedDepositEvents lidoWC events e).mpr ⟨he, hcond⟩)
  · intro hnot e hmem
    obtain ⟨he, hcond⟩ := (mem_frontRunnedDepositEvents lidoWC events e).mp hmem
    exact hnot ⟨e, he, hcond⟩

/-- A BLS-invalid non-Lido deposit that precedes the Lido deposit for the
same pubkey (concrete fixture). -/
def ceEventBad : VerifiedDepositEvent :=
  { pubkey := "a", wc := "bad", amount := "32", signature := "s1"
    blockNumber := 1, logIndex := 0, blockHash := "h1"
    depositCount := 0, depositDataRoot := "d1", valid := false }

/-- A valid Lido-WC deposit for the same pubkey, one block later
(concrete fixture). -/
def ceEventLido : VerifiedDepositEvent :=
  { pubkey := "a", wc := "lido", amount := "32", signature := "s2"
    blockNumber := 2, logIndex := 0, blockHash := "h2"
    depositCount := 1, depositDataRoot := "d2", valid := true }

/-- Concrete fixture key returned by the keys-index for any query. -/
def ceRegistryKeyC1 : RegistryKey :=
  { key := "a", depositSignature := "s", operatorIndex := 0, used := false
    index := 0, moduleAddress := "m" }

/-- Concrete block data holding the two fixture events. -/
def ceBlockDataC1 : BlockData :=
  { blockNumber := 2, blockHash := "h2", depositRoot := "r"
    depositedEvents := { events := [ceEventBad, ceEventLido]
                         startBlock := 0, endBlock := 2, isValid := true }
    guardianAddress := "g", guardianIndex := 0, lidoWC := "lido" }

/-- A keys-index query that always reports ownership. -/
def ceQueryC1 : List String → List RegistryKey := fun _ => [ceRegistryKeyC1]

/-- **C1, counterexample.**  The claim as stated does not require the
suspect deposit event `E` itself to be BLS-valid; the code filters
suspects by `valid` (`validDuplicatedDepositEvents`).  With an invalid
non-Lido deposit at block 1 and a valid Lido deposit at block 2 for the
same pubkey, and a keys-index that reports ownership, clause (i) of the
claim holds and the query is non-empty, yet `getHistoricalFrontRun`
returns `false`. -/
theorem getHistoricalFrontRun_claim_counterexample :
    ¬ (getHistoricalFrontRun ceQueryC1 ceBlockDataC1 = true ↔
        ((∃ e ∈ ceBlockDataC1.depositedEvents.events,
            e.wc ≠ ceBlockDataC1.lidoWC ∧
            (∃ l ∈ ceBlockDataC1.depositedEvents.events,
              l.pubkey = e.pubkey ∧ l.wc = ceBlockDataC1.lidoWC ∧
                l.valid = true) ∧
            (∀ l ∈ ceBlockDataC1.depositedEvents.events,
              l.pubkey = e.pubkey → l.wc = ceBlockDataC1.lidoWC →
                l.valid = true → isFirstEventEarlier e l = true)) ∧
          (ceQueryC1 (frontRunnedDepositKeys ceBlockDataC1.lidoWC
              ceBlockDataC1.depositedEvents.events)).length ≠ 0)) := by
  decide

/-- **C1, amended.**  `getHistoricalFrontRun` returns `true` iff (i) some
**valid** deposited event `E` has `wc ≠ lidoWC`, its pubkey also carries a
valid Lido-WC deposit, and `E` precedes every valid Lido-WC deposit for
that pubkey, and (ii) the keys-index query over the flagged pubkeys
returns a non-empty `data` list; when no event satisfies (i) it returns
`false` without consulting the keys-index (the result is independent of
the query function). -/
theorem getHistoricalFrontRun_iff (query : List String → List RegistryKey)
    (blockData : BlockData) :
    (getHistoricalFrontRun query blockData = true ↔
      ((∃ e ∈ blockData.depositedEvents.events,
          e.valid = true ∧ e.wc ≠ blockData.lidoWC ∧
          (∃ l ∈ blockData.depositedEvents.events,
            l.pubkey = e.pubkey ∧ l.wc = blockData.lidoWC ∧ l.valid = true) ∧
          (∀ l ∈ blockData.depositedEvents.events,
            l.pubkey = e.pubkey → l.wc = blockData.lidoWC → l.valid = true →
              isFirstEventEarlier e l = true)) ∧
        (query (frontRunnedDepositKeys blockData.lidoWC
            blockData.depositedEvents.events)).length ≠ 0)) ∧
    ((¬ ∃ e ∈ blockData.depositedEvents.events,
        e.valid = true ∧ e.wc ≠ blockData.lidoWC ∧
        (∃ l ∈ blockData.depositedEvents.events,
          l.pubkey = e.pubkey ∧ l.wc = blockData.lidoWC ∧ l.valid = true) ∧
        (∀ l ∈ blockData.depositedEvents.events,
          l.pubkey = e.pubkey → l.wc = blockData.lidoWC → l.valid = true →
            isFirstEventEarlier e l = true)) →
      ∀ q : List String → List RegistryKey,
        getHistoricalFrontRun q blockData = false) := by
  have hkeys := frontRunnedDepositKeys_eq_nil_iff blockData.lidoWC
    blockData.depositedEvents.events
  constructor
  · by_cases hemp : frontRunnedDepositKeys blockData.lidoWC
        blockData.depositedEvents.events = []
    · have hcond := hkeys.mp hemp
      exact iff_of_false (by simp [getHistoricalFrontRun, hemp])
        (fun hcn => hcond hcn.1)
    · have hcond : ∃ e ∈ blockData.depositedEvents.events,
          e.valid = true ∧ e.wc ≠ blockData.lidoWC ∧
          (∃ l ∈ blockData.depositedEvents.events,
            l.pubkey = e.pubkey ∧ l.wc = blockData.lidoWC ∧ l.valid = true) ∧
          (∀ l ∈ blockData.depositedEvents.events,
            l.pubkey = e.pubkey → l.wc = blockData.lidoWC → l.valid = true →
              isFirstEventEarlier e l = true) := by
        by_contra hnc
        exact hemp (hkeys.mpr hnc)
      have hne : (frontRunnedDepositKeys blockData.lidoWC
          blockData.depositedEvents.events).isEmpty = false := by
        rw [Bool.eq_false_iff]
        intro hq
        exact hemp (List.isEmpty_iff.mp hq)
      constructor
      · intro hq
        refine ⟨hcond, ?_⟩
        simp only [getHistoricalFrontRun, hne, Bool.false_eq_true,
          if_false] at hq
        simpa using hq
      · rintro ⟨_, hq⟩
        simp only [getHistoricalFrontRun, hne, Bool.false_eq_true, if_false]
        simpa using hq
  · intro hnc q
    have hemp := hkeys.mpr hnc
    simp [getHistoricalFrontRun, hemp]

/-- **C1, witness.**  At the fixture block data the amended condition
fails (its only non-Lido deposit is BLS-invalid), so the detector returns
`false` regardless of the keys-index. -/
theorem getHistoricalFrontRun_iff_witness :
    getHistoricalFrontRun ceQueryC1 ceBlockDataC1 = false :=
  (getHistoricalFrontRun_iff ceQueryC1 ceBlockDataC1).2 (by decide) ceQueryC1

/-- `StakingModuleGuardService.getKeysIntersections`: deposited events
whose pubkey is among the module's vetted unused keys. -/
def getKeysIntersections (stakingModuleData : StakingModuleData)
    (blockData : BlockData) : List VerifiedDepositEvent :=
  let vettedUnusedKeys := stakingModuleData.vettedUnusedKeys.map (·.key)
  blockData.depositedEvents.events.filter
    (fun e => vettedUnusedKeys.contains e.pubkey)

/-- `StakingModuleGuardService.excludeEligibleIntersections`: keeps only
intersections with a non-Lido withdrawal credential and a valid BLS
signature. -/
def excludeEligibleIntersections (blockData : BlockData)
    (intersections : List VerifiedDepositEvent) : List VerifiedDepositEvent :=
  intersections.filter (fun e => e.wc != blockData.lidoWC && e.valid)

/-- `StakingModuleGuardService.getFrontRunAttempts`: the module's vetted
unused registry keys whose pubkey appears among the filtered
intersections. -/
def getFrontRunAttempts (stakingModuleData : StakingModuleData)
    (blockData : BlockData) : List RegistryKey :=
  let keysIntersections := getKeysIntersections stakingModuleData blockData
  let frontRunAttempts :=
    excludeEligibleIntersections blockData keysIntersections
  let keys := frontRunAttempts.map (·.pubkey)
  stakingModuleData.vettedUnusedKeys.filter (fun key => keys.contains key.key)

/-- **C2.**  `getFrontRunAttempts` returns exactly those registry keys in
the module's `vettedUnusedKeys` whose pubkey occurs in some deposited
event with `wc ≠ lidoWC` and `valid == true`; an event with `wc == lidoWC`
or `valid == false` never contributes a front-run key. -/
theorem getFrontRunAttempts_eq_filter (stakingModuleData : StakingModuleData)
    (blockData : BlockData) :
    getFrontRunAttempts stakingModuleData blockData =
      stakingModuleData.vettedUnusedKeys.filter (fun k =>
        blockData.depositedEvents.events.any (fun e =>
          e.pubkey == k.key && e.wc != blockData.lidoWC && e.valid)) := by
  unfold getFrontRunAttempts
  apply List.filter_congr
  intro k hk
  rw [Bool.eq_iff_iff]
  constructor
  · intro hcont
    rw [List.elem_iff, List.mem_map] at hcont
    obtain ⟨e, he, hep⟩ := hcont
    rw [excludeEligibleIntersections, List.mem_filter, Bool.and_eq_true] at he
    obtain ⟨hei, hwc, hval⟩ := he
    rw [getKeysIntersections, List.mem_filter] at hei
    rw [List.any_eq_true]
    exact ⟨e, hei.1, by simp [hep, hwc, hval]⟩
  · intro hany
    rw [List.any_eq_true] at hany
    obtain ⟨e, he, hprops⟩ := hany
    simp only [Bool.and_eq_true, beq_iff_eq] at hprops
    obtain ⟨⟨hep, hwc⟩, hval⟩ := hprops
    rw [List.elem_iff, List.mem_map]
    refine ⟨e, ?_, hep⟩
    rw [excludeEligibleIntersections, List.mem_filter, Bool.and_eq_true]
    refine ⟨?_, hwc, hval⟩
    rw [getKeysIntersections, List.mem_filter]
    refine ⟨he, ?_⟩
    rw [List.elem_iff, List.mem_map]
    exact ⟨k, hk, hep.symm⟩

/-- Modelled from the spec: `GUARDIAN_DEPOSIT_RESIGNING_BLOCKS` (spec §6
Constants, ≈ 10).  `guardian.constants.ts` itself is not among the
provided sources; the claims below do not depend on the exact value. -/
def GUARDIAN_DEPOSIT_RESIGNING_BLOCKS : Nat := 10

/-- Per-module contract state snapshot (`ContractsState` in the source). -/
structure ContractsState where
  nonce : Nat
  depositRoot : String
  blockNumber : Nat
  lastChangedBlockHash : String
  deriving Repr, DecidableEq

/-- `StakingModuleGuardService.isSameContractsStates`: both states
present, equal `depositRoot`, equal `lastChangedBlockHash`, and equal
re-signing window `floor(blockNumber / GUARDIAN_DEPOSIT_RESIGNING_BLOCKS)`.
The nonce is deliberately not compared (see the source comment). -/
def isSameContractsStates
    (firstState secondState : Option ContractsState) : Bool :=
  match firstState, secondState with
  | some f, some s =>
    if f.depositRoot != s.depositRoot then false
    else if f.lastChangedBlockHash != s.lastChangedBlockHash then false
    else if f.blockNumber / GUARDIAN_DEPOSIT_RESIGNING_BLOCKS !=
        s.blockNumber / GUARDIAN_DEPOSIT_RESIGNING_BLOCKS then false
    else true
  | _, _ => false

/-- A deposit message as assembled by `handleCorrectKeys`. -/
structure DepositMessage where
  depositRoot : String
  nonce : Nat
  blockNumber : Nat
  blockHash : String
  guardianAddress : String
  guardianIndex : Nat
  signature : String
  stakingModuleId : Nat
  deriving Repr, DecidableEq

/-- `StakingModuleGuardService.handleCorrectKeys`.  The state record
`lastContractsStateByModuleId` is passed and returned explicitly; the
signer `securityService.signDepositData` is a function parameter taking
`(depositRoot, nonce, blockNumber, blockHash, stakingModuleId)`.  The
source stores the current state unconditionally before the comparison
result is consulted, and emits a deposit message only when the state
changed. -/
def handleCorrectKeys (sign : String → Nat → Nat → String → Nat → String)
    (lastContractsStateByModuleId : Nat → Option ContractsState)
    (stakingModuleData : StakingModuleData) (blockData : BlockData) :
    (Nat → Option ContractsState) × Option DepositMessage :=
  let currentContractState : ContractsState :=
    { nonce := stakingModuleData.nonce
      depositRoot := blockData.depositRoot
      blockNumber := blockData.blockNumber
      lastChangedBlockHash := stakingModuleData.lastChangedBlockHash }
  let lastContractsState :=
    lastContractsStateByModuleId stakingModuleData.stakingModuleId
  let isSame :=
    isSameContractsStates (some currentContractState) lastContractsState
  let updated := fun id =>
    if id == stakingModuleData.stakingModuleId then
      some currentContractState
    else lastContractsStateByModuleId id
  (updated,
    if isSame then none
    else
      some { depositRoot := blockData.depositRoot
             nonce := stakingModuleData.nonce
             blockNumber := blockData.blockNumber
             blockHash := blockData.blockHash
             guardianAddress := blockData.guardianAddress
             guardianIndex := blockData.guardianIndex
             signature := sign blockData.depositRoot stakingModuleData.nonce
               blockData.blockNumber blockData.blockHash
               stakingModuleData.stakingModuleId
             stakingModuleId := stakingModuleData.stakingModuleId })

/-- **C4.**  `isSameContractsStates` returns `true` iff both states are
present with equal `depositRoot`, equal `lastChangedBlockHash` and equal
re-signing window; consequently, over two consecutive ticks with identical
`{depositRoot, nonce, lastChangedBlockHash}` and equal window (starting
with no recorded state for the module), `handleCorrectKeys` emits a
deposit message on the first tick only. -/
theorem isSameContractsStates_spec :
    (∀ firstState secondState : Option ContractsState,
      isSameContractsStates firstState secondState = true ↔
        ∃ f s, firstState = some f ∧ secondState = some s ∧
          f.depositRoot = s.depositRoot ∧
          f.lastChangedBlockHash = s.lastChangedBlockHash ∧
          f.blockNumber / GUARDIAN_DEPOSIT_RESIGNING_BLOCKS =
            s.blockNumber / GUARDIAN_DEPOSIT_RESIGNING_BLOCKS) ∧
    (∀ (sign : String → Nat → Nat → String → Nat → String)
      (lastStates : Nat → Option ContractsState)
      (smd : StakingModuleData) (bd1 bd2 : BlockData),
      lastStates smd.stakingModuleId = none →
      bd1.depositRoot = bd2.depositRoot →
      bd1.blockNumber / GUARDIAN_DEPOSIT_RESIGNING_BLOCKS =
        bd2.blockNumber / GUARDIAN_DEPOSIT_RESIGNING_BLOCKS →
      (handleCorrectKeys sign lastStates smd bd1).2.isSome = true ∧
      (handleCorrectKeys sign
        (handleCorrectKeys sign lastStates smd bd1).1 smd bd2).2 = none) := by
  constructor
  · intro firstState secondState
    rcases firstState with _ | f <;> rcases secondState with _ | s <;>
      simp [isSameContractsStates]
  · intro sign lastStates smd bd1 bd2 hnone hroot hwin
    constructor
    · simp only [handleCorrectKeys, hnone]
      simp [isSameContractsStates]
    · simp only [handleCorrectKeys, hnone, beq_self_eq_true, if_true]
      have hsame : isSameContractsStates
          (some { nonce := smd.nonce, depositRoot := bd2.depositRoot
                  blockNumber := bd2.blockNumber
                  lastChangedBlockHash := smd.lastChangedBlockHash })
          (some { nonce := smd.nonce, depositRoot := bd1.depositRoot
                  blockNumber := bd1.blockNumber
                  lastChangedBlockHash := smd.lastChangedBlockHash }) =
          true := by
        simp [isSameContractsStates, hroot, hwin]
      simp [hsame]

/-- Fixture module data for the re-signing scenario. -/
def cwSmdC4 : StakingModuleData :=
  { nonce := 7, stakingModuleId := 1, blockHash := "h5"
    lastChangedBlockHash := "lcb", vettedUnusedKeys := [] }

/-- Fixture block data for the first tick. -/
def cwBd1C4 : BlockData :=
  { blockNumber := 5, blockHash := "h5", depositRoot := "r"
    depositedEvents := { events := [], startBlock := 0, endBlock := 5
                         isValid := true }
    guardianAddress := "g", guardianIndex := 0, lidoWC := "lido" }

/-- Fixture block data for the second tick: same deposit root, same
re-signing window (blocks 5 and 9 are both in window 0). -/
def cwBd2C4 : BlockData :=
  { blockNumber := 9, blockHash := "h9", depositRoot := "r"
    depositedEvents := { events := [], startBlock := 0, endBlock := 9
                         isValid := true }
    guardianAddress := "g", guardianIndex := 0, lidoWC := "lido" }

/-- Fixture signer. -/
def cwSignC4 : String → Nat → Nat → String → Nat → String :=
  fun _ _ _ _ _ => "sig"

/-- **C4, witness.**  Concrete two-tick run: the first tick emits a
deposit message, the second does not. -/
theorem isSameContractsStates_spec_witness :
    (handleCorrectKeys cwSignC4 (fun _ => none) cwSmdC4 cwBd1C4).2.isSome =
      true ∧
    (handleCorrectKeys cwSignC4
      (handleCorrectKeys cwSignC4 (fun _ => none) cwSmdC4 cwBd1C4).1
      cwSmdC4 cwBd2C4).2 = none :=
  isSameContractsStates_spec.2 cwSignC4 (fun _ => none) cwSmdC4 cwBd1C4
    cwBd2C4 rfl rfl (by decide)

/-- One 32-byte head slot of the ABI encoding: both `bytes32` and
`uint256` are static one-slot types, the value reduced mod `2^256`. -/
def abiWord (v : Nat) : Nat := v % 2 ^ 256

/-- `defaultAbiCoder.encode` over a tuple of static one-slot types
(`bytes32` / `uint256`): the concatenation of one 32-byte word per value,
in argument order. -/
def defaultAbiCoderEncode (values : List Nat) : List Nat :=
  values.map abiWord

/-- The cryptographic primitives used by `WalletService`, passed
abstractly: `keccak256` over the encoded words and the ECDSA
`_signingKey().signDigest` under a private key. -/
structure Crypto where
  keccak256 : List Nat → Nat
  signDigest : String → Nat → String

/-- An ethers `Wallet`: a private key and the address derived from it at
construction time. -/
structure EthersWallet where
  privateKey : String
  address : String
  deriving Repr, DecidableEq

/-- `WalletService.signMessage`: signs a digest with the wallet's private
key (`this.wallet._signingKey().signDigest(message)`). -/
def signMessage (crypto : Crypto) (wallet : EthersWallet) (message : Nat) :
    String :=
  crypto.signDigest wallet.privateKey message

/-- `WalletService.signDepositData`: ABI-encodes
`['bytes32','uint256','bytes32','bytes32','uint256','uint256']` over
`[prefix, blockNumber, blockHash, depositRoot, stakingModuleId,
keysOpIndex]`, hashes with keccak256, and signs the digest.  The source
field `prefix` is rendered `msgPrefix` here. -/
def signDepositData (crypto : Crypto) (wallet : EthersWallet)
    (msgPrefix blockNumber blockHash depositRoot keysOpIndex
      stakingModuleId : Nat) : String :=
  let encodedData := defaultAbiCoderEncode
    [msgPrefix, blockNumber, blockHash, depositRoot, stakingModuleId,
      keysOpIndex]
  let messageHash := crypto.keccak256 encodedData
  signMessage crypto wallet messageHash

/-- **C5.**  For every input, `signDepositData` produces the ECDSA
signature, under the guardian wallet's private key, of the keccak256 hash
of the ABI head encoding whose six 32-byte slots are exactly
`(prefix, blockNumber, blockHash, depositRoot, stakingModuleId,
keysOpIndex)` in that order. -/
theorem signDepositData_spec (crypto : Crypto) (wallet : EthersWallet)
    (msgPrefix blockNumber blockHash depositRoot keysOpIndex
      stakingModuleId : Nat) :
    signDepositData crypto wallet msgPrefix blockNumber blockHash
        depositRoot keysOpIndex stakingModuleId =
      crypto.signDigest wallet.privateKey
        (crypto.keccak256
          [msgPrefix % 2 ^ 256, blockNumber % 2 ^ 256, blockHash % 2 ^ 256,
           depositRoot % 2 ^ 256, stakingModuleId % 2 ^ 256,
           keysOpIndex % 2 ^ 256]) := rfl

/-- The mutable state of `WalletService` relevant to the `wallet` getter:
the configured private key and the cached `Wallet` instance. -/
structure WalletServiceState where
  privateKey : String
  cachedWallet : Option EthersWallet
  deriving Repr, DecidableEq

/-- The `WalletService.wallet` getter.  `addrOf` models the address
derivation performed by the ethers `Wallet` constructor, and
`randomPrivateKey` models `Wallet.createRandom().privateKey`.  An empty
configured key (falsy in the source) is replaced by the random key; the
constructed wallet is cached. -/
def walletGetter (addrOf : String → String) (randomPrivateKey : String)
    (s : WalletServiceState) : EthersWallet × WalletServiceState :=
  match s.cachedWallet with
  | some w => (w, s)
  | none =>
    let pk := if s.privateKey = "" then randomPrivateKey else s.privateKey
    let w : EthersWallet := { privateKey := pk, address := addrOf pk }
    (w, { privateKey := pk, cachedWallet := some w })

/-- **C10.**  With an empty configured private key and an empty cache, the
first access to `WalletService.wallet` uses the freshly generated random
private key (it does not fail), and the result is cached: every
subsequent access — whatever random key would be drawn then — returns the
identical instance and hence the same guardian address. -/
theorem walletGetter_empty_key_caches (addrOf : String → String)
    (randomKey : String) (s : WalletServiceState)
    (hpk : s.privateKey = "") (hcache : s.cachedWallet = none) :
    (walletGetter addrOf randomKey s).1.privateKey = randomKey ∧
    (walletGetter addrOf randomKey s).1.address = addrOf randomKey ∧
    (∀ randomKey2 : String,
      walletGetter addrOf randomKey2 (walletGetter addrOf randomKey s).2 =
        ((walletGetter addrOf randomKey s).1,
          (walletGetter addrOf randomKey s).2)) := by
  obtain ⟨pk, cw⟩ := s
  simp only at hpk hcache
  subst hpk
  subst hcache
  simp [walletGetter]

/-- **C10, witness.**  Concrete run with an empty configured key. -/
theorem walletGetter_empty_key_caches_witness :
    (walletGetter (fun pk => String.append "addr:" pk) "k"
        { privateKey := "", cachedWallet := none }).1.privateKey = "k" ∧
    (walletGetter (fun pk => String.append "addr:" pk) "k"
        { privateKey := "", cachedWallet := none }).1.address =
      String.append "addr:" "k" ∧
    (∀ randomKey2 : String,
      walletGetter (fun pk => String.append "addr:" pk) randomKey2
          (walletGetter (fun pk => String.append "addr:" pk) "k"
            { privateKey := "", cachedWallet := none }).2 =
        ((walletGetter (fun pk => String.append "addr:" pk) "k"
            { privateKey := "", cachedWallet := none }).1,
          (walletGetter (fun pk => String.append "addr:" pk) "k"
            { privateKey := "", cachedWallet := none }).2)) :=
  walletGetter_empty_key_caches (fun pk => String.append "addr:" pk) "k"
    { privateKey := "", cachedWallet := none } rfl rfl

/-- `InconsistentLastChangedBlockHash` (from `common/custom-errors`). -/
inductive KapiInconsistencyError where
  | inconsistentLastChangedBlockHash
  deriving Repr, DecidableEq

/-- `KeysApiService.verifyMetaDataConsistency` (identical logic in
`StakingRouterService.isEqualLastChangedBlockHash`): throws
`InconsistentLastChangedBlockHash` when the two hashes differ, otherwise
returns normally. -/
def verifyMetaDataConsistency (firstRequestHash secondRequestHash : String) :
    Except KapiInconsistencyError Unit :=
  if firstRequestHash ≠ secondRequestHash then
    .error .inconsistentLastChangedBlockHash
  else
    .ok ()

/-- `StakingRouterService.isEqualLastChangedBlockHash`: throws
`InconsistentLastChangedBlockHash` when the two hashes differ, otherwise
returns normally.  This is the check `GuardianService.handleNewBlock`
invokes between the operators and keys requests. -/
def isEqualLastChangedBlockHash
    (firstRequestHash secondRequestHash : String) :
    Except KapiInconsistencyError Unit :=
  if firstRequestHash ≠ secondRequestHash then
    .error .inconsistentLastChangedBlockHash
  else
    .ok ()

/-- The `try` block of `GuardianService.handleNewBlock`, projected to the
messages it publishes: the operators request yields `operatorsHash`
(`meta.elBlockSnapshot.lastChangedBlockHash`); if the block-guard says
there is no new state the tick returns early; otherwise the keys request
yields `keysHash` (`currMeta.elBlockSnapshot.lastChangedBlockHash`) and
`stakingRouterService.isEqualLastChangedBlockHash` is called.  Every
message publication of the tick — the v3/v2 pause broadcasts, the
per-module unvet and deposit messages, and the broker ping — happens
after that call; those externally-interacting phases are abstracted by
`messagesIfProceed`, the messages they would publish.  A thrown
`InconsistentLastChangedBlockHash` propagates out of the `try` block
before any of them run. -/
def handleNewBlockTry (isNeedToProcessNewState : Bool)
    (operatorsHash keysHash : String) (messagesIfProceed : List String) :
    Except KapiInconsistencyError (List String) :=
  if !isNeedToProcessNewState then .ok []
  else
    match isEqualLastChangedBlockHash operatorsHash keysHash with
    | .error e => .error e
    | .ok _ => .ok messagesIfProceed

/-- `GuardianService.handleNewBlock`: the surrounding `catch` logs the
error and the tick ends, so an aborted tick publishes no messages. -/
def handleNewBlock (isNeedToProcessNewState : Bool)
    (operatorsHash keysHash : String) (messagesIfProceed : List String) :
    List String :=
  match handleNewBlockTry isNeedToProcessNewState operatorsHash keysHash
      messagesIfProceed with
  | .ok messages => messages
  | .error _ => []

/-- **C3.**  If the `lastChangedBlockHash` from the operators request
differs from the one of the subsequent keys request, the consistency
check throws `InconsistentLastChangedBlockHash` (shown both for the
`isEqualLastChangedBlockHash` the tick calls and for the identical
`verifyMetaDataConsistency`) and the tick aborts with no deposit or pause
messages emitted; if they are equal, the check raises no error and the
tick proceeds with its messages. -/
theorem lastChangedBlockHash_consistency (h1 h2 : String) :
    (h1 ≠ h2 →
      isEqualLastChangedBlockHash h1 h2 =
        .error KapiInconsistencyError.inconsistentLastChangedBlockHash ∧
      verifyMetaDataConsistency h1 h2 =
        .error KapiInconsistencyError.inconsistentLastChangedBlockHash ∧
      ∀ messages : List String, handleNewBlock true h1 h2 messages = []) ∧
    (h1 = h2 →
      isEqualLastChangedBlockHash h1 h2 = .ok () ∧
      verifyMetaDataConsistency h1 h2 = .ok () ∧
      ∀ messages : List String,
        handleNewBlock true h1 h2 messages = messages) := by
  constructor
  · intro hne
    have hv : isEqualLastChangedBlockHash h1 h2 =
        .error KapiInconsistencyError.inconsistentLastChangedBlockHash := by
      simp [isEqualLastChangedBlockHash, hne]
    refine ⟨hv, by simp [verifyMetaDataConsistency, hne], ?_⟩
    intro messages
    simp [handleNewBlock, handleNewBlockTry, hv]
  · intro heq
    have hv : isEqualLastChangedBlockHash h1 h2 = .ok () := by
      simp [isEqualLastChangedBlockHash, heq]
    refine ⟨hv, by simp [verifyMetaDataConsistency, heq], ?_⟩
    intro messages
    simp [handleNewBlock, handleNewBlockTry, hv]

/-- **C3, witness.**  Concrete differing and equal hash pairs in a tick
that reached the keys request. -/
theorem lastChangedBlockHash_consistency_witness :
    (isEqualLastChangedBlockHash "0xH1" "0xH2" =
        .error KapiInconsistencyError.inconsistentLastChangedBlockHash ∧
      handleNewBlock true "0xH1" "0xH2" ["deposit", "pause"] = []) ∧
    (isEqualLastChangedBlockHash "0xH1" "0xH1" = .ok () ∧
      handleNewBlock true "0xH1" "0xH1" ["deposit", "pause"] =
        ["deposit", "pause"]) :=
  ⟨⟨((lastChangedBlockHash_consistency "0xH1" "0xH2").1 (by decide)).1,
    ((lastChangedBlockHash_consistency "0xH1" "0xH2").1 (by decide)).2.2
      ["deposit", "pause"]⟩,
   ⟨((lastChangedBlockHash_consistency "0xH1" "0xH1").2 rfl).1,
    ((lastChangedBlockHash_consistency "0xH1" "0xH1").2 rfl).2.2
      ["deposit", "pause"]⟩⟩

/-- Header of the persisted deposit-events cache. -/
structure VerifiedDepositEventsCacheHeaders where
  startBlock : Nat
  endBlock : Nat
  deriving Repr, DecidableEq

/-- The persisted deposit-events cache (`VerifiedDepositEventsCache` in
the source): headers, the ordered event data, and the separately stored
last verified event. -/
structure VerifiedDepositEventsCache where
  headers : VerifiedDepositEventsCacheHeaders
  data : List VerifiedDepositEvent
  lastValidEvent : Option VerifiedDepositEvent
  deriving Repr, DecidableEq

/-- Modelled from the spec:
`DepositRegistrySanityCheckerService.verifyCacheBlock` (§4.4) returns
`false` iff `cache.endBlock > currentBlock` (an RPC regression); the
sanity-checker service is not among the provided sources. -/
def verifyCacheBlock (cachedEvents : VerifiedDepositEventsCache)
    (currentBlock : Nat) : Bool :=
  cachedEvents.headers.endBlock ≤ currentBlock

/-- `DepositRegistryService.getCachedEvents`: the stored cache with its
header blocks clamped from below by the deployment block. -/
def getCachedEvents (deploymentBlock : Nat)
    (stored : VerifiedDepositEventsCache) : VerifiedDepositEventsCache :=
  { stored with
    headers := { startBlock := max stored.headers.startBlock deploymentBlock
                 endBlock := max stored.headers.endBlock deploymentBlock } }

/-- `DepositRegistryService.getAllDepositedEvents`.  The fetcher
(`fetchEventsFallOver`) and the fresh-events integrity check
(`sanityChecker.verifyFreshEvents`, which clones the tree, applies the
fresh events and compares roots at the latest block hash) are function
parameters; `cachedEvents` is the result of `getCachedEvents`.  The
function is total: the invalid-cache branch returns the cached data
without fetching. -/
def getAllDepositedEvents
    (fetchEventsFallOver : Nat → Nat → List VerifiedDepositEvent)
    (verifyFreshEvents : String → List VerifiedDepositEvent → Bool)
    (cachedEvents : VerifiedDepositEventsCache)
    (blockNumber : Nat) (blockHash : String) : VerifiedDepositedEventGroup :=
  let endBlock := blockNumber
  let isCacheValid := verifyCacheBlock cachedEvents blockNumber
  if !isCacheValid then
    { events := cachedEvents.data
      startBlock := cachedEvents.headers.startBlock
      endBlock := cachedEvents.headers.endBlock
      isValid := false }
  else
    let firstNotCachedBlock := cachedEvents.headers.endBlock + 1
    let freshEvents := fetchEventsFallOver firstNotCachedBlock endBlock
    let isValid := verifyFreshEvents blockHash freshEvents
    { events := cachedEvents.data ++ freshEvents
      startBlock := cachedEvents.headers.startBlock
      endBlock := endBlock
      isValid := isValid }

/-- **C9.**  When the cache fails the cache-block check for the requested
block (`endBlock > blockNumber`), `getAllDepositedEvents` returns the
cached events unchanged with the cache's own `startBlock`/`endBlock` and
`isValid == false`, for every fetcher and every freshness check — in
particular no fresh events are fetched and nothing is thrown; otherwise
it returns the cached events concatenated with the freshly fetched events
up to `blockNumber`. -/
theorem getAllDepositedEvents_spec :
    (∀ (fetch : Nat → Nat → List VerifiedDepositEvent)
      (verify : String → List VerifiedDepositEvent → Bool)
      (cached : VerifiedDepositEventsCache) (blockNumber : Nat)
      (blockHash : String),
      blockNumber < cached.headers.endBlock →
      getAllDepositedEvents fetch verify cached blockNumber blockHash =
        { events := cached.data
          startBlock := cached.headers.startBlock
          endBlock := cached.headers.endBlock
          isValid := false }) ∧
    (∀ (fetch : Nat → Nat → List VerifiedDepositEvent)
      (verify : String → List VerifiedDepositEvent → Bool)
      (cached : VerifiedDepositEventsCache) (blockNumber : Nat)
      (blockHash : String),
      cached.headers.endBlock ≤ blockNumber →
      getAllDepositedEvents fetch verify cached blockNumber blockHash =
        { events := cached.data ++
            fetch (cached.headers.endBlock + 1) blockNumber
          startBlock := cached.headers.startBlock
          endBlock := blockNumber
          isValid := verify blockHash
            (fetch (cached.headers.endBlock + 1) blockNumber) }) := by
  constructor
  · intro fetch verify cached blockNumber blockHash hgt
    have hc : verifyCacheBlock cached blockNumber = false := by
      simp only [verifyCacheBlock, decide_eq_false_iff_not]
      omega
    simp [getAllDepositedEvents, hc]
  · intro fetch verify cached blockNumber blockHash hle
    have hc : verifyCacheBlock cached blockNumber = true := by
      simpa [verifyCacheBlock] using hle
    simp [getAllDepositedEvents, hc]

/-- **C9, witness.**  A cache written up to block 10 queried at block 5
(stale-node case) and at block 12 (normal case), with a fetcher returning
one fresh event. -/
theorem getAllDepositedEvents_spec_witness :
    getAllDepositedEvents (fun _ _ => [ceEventLido]) (fun _ _ => true)
        { headers := { startBlock := 0, endBlock := 10 }
          data := [ceEventBad], lastValidEvent := none } 5 "bh" =
      { events := [ceEventBad], startBlock := 0, endBlock := 10
        isValid := false } ∧
    getAllDepositedEvents (fun _ _ => [ceEventLido]) (fun _ _ => true)
        { headers := { startBlock := 0, endBlock := 10 }
          data := [ceEventBad], lastValidEvent := none } 12 "bh" =
      { events := [ceEventBad] ++ [ceEventLido], startBlock := 0
        endBlock := 12, isValid := true } :=
  ⟨getAllDepositedEvents_spec.1 (fun _ _ => [ceEventLido]) (fun _ _ => true)
      { headers := { startBlock := 0, endBlock := 10 }
        data := [ceEventBad], lastValidEvent := none } 5 "bh" (by decide),
   getAllDepositedEvents_spec.2 (fun _ _ => [ceEventLido]) (fun _ _ => true)
      { headers := { startBlock := 0, endBlock := 10 }
        data := [ceEventBad], lastValidEvent := none } 12 "bh" (by decide)⟩

/-- `DEPOSIT_EVENTS_STEP` (deposits-registry constants). -/
def DEPOSIT_EVENTS_STEP : Nat := 10000

/-- The block ranges visited by the chunk loop of `updateEventsCache`
(`for (block = first; block <= finalized; block += DEPOSIT_EVENTS_STEP)`,
each chunk ending at `min(finalized, block + STEP - 1)`), with explicit
fuel for structural recursion; the loop advances by at least one block per
iteration, so `finalized + 1 - first` iterations always suffice. -/
def chunkRangesAux : Nat → Nat → Nat → List (Nat × Nat)
  | 0, _, _ => []
  | fuel + 1, block, finalizedBlockNumber =>
    if block ≤ finalizedBlockNumber then
      (block, min finalizedBlockNumber (block + DEPOSIT_EVENTS_STEP - 1)) ::
        chunkRangesAux fuel (block + DEPOSIT_EVENTS_STEP) finalizedBlockNumber
    else []

/-- The chunk list of `updateEventsCache`. -/
def chunkRanges (firstNotCachedBlock finalizedBlockNumber : Nat) :
    List (Nat × Nat) :=
  chunkRangesAux (finalizedBlockNumber + 1 - firstNotCachedBlock)
    firstNotCachedBlock finalizedBlockNumber

/-- Loop accumulator of `updateEventsCache`: the store state after the
batch insertions so far, the running count of newly fetched events, and
`lastIndexedEvent`. -/
structure UpdateLoopAcc where
  cache : VerifiedDepositEventsCache
  newEventsCount : Nat
  lastIndexedEvent : Option VerifiedDepositEvent

/-- One iteration of the chunk loop: fetch the chunk, insert the batch
(`store.insertEventsCacheBatch` advances the stored header `endBlock` to
the chunk end and appends the chunk events), bump the counter, and update
`lastIndexedEvent` when the chunk is non-empty. -/
def updateEventsCacheStep
    (fetchEventsFallOver : Nat → Nat → List VerifiedDepositEvent)
    (acc : UpdateLoopAcc) (chunk : Nat × Nat) : UpdateLoopAcc :=
  let events := fetchEventsFallOver chunk.1 chunk.2
  { cache := { headers := { startBlock := acc.cache.headers.startBlock
                            endBlock := chunk.2 }
               data := acc.cache.data ++ events
               lastValidEvent := acc.cache.lastValidEvent }
    newEventsCount := acc.newEventsCount + events.length
    lastIndexedEvent :=
      match events.getLast? with
      | some lastEventFromGroup => some lastEventFromGroup
      | none => acc.lastIndexedEvent }

/-- Observable outcome of one `updateEventsCache` run: the resulting
store state, the argument of the `store.insertLastValidEvent` call when it
was made, whether the root comparison (`verifyUpdatedEvents`) was reached,
the number of newly indexed events, and whether the
`Integrity check failed` error was logged.  The function is total: the
daemon keeps running in every case. -/
structure UpdateEventsCacheResult where
  cache : VerifiedDepositEventsCache
  insertedLastValidEvent : Option VerifiedDepositEvent
  didRootCheck : Bool
  newEventsCount : Nat
  integrityErrorLogged : Bool

/-- `DepositRegistryService.updateEventsCache`.  The chunk fetcher and the
root comparison against `get_deposit_root` at the finalized block hash
(`sanityChecker.verifyUpdatedEvents`, whose outcome depends on chain data)
are function parameters. -/
def updateEventsCache
    (fetchEventsFallOver : Nat → Nat → List VerifiedDepositEvent)
    (verifyUpdatedEvents : String → Bool)
    (deploymentBlock : Nat) (stored : VerifiedDepositEventsCache)
    (finalizedBlockNumber : Nat) (finalizedBlockHash : String) :
    UpdateEventsCacheResult :=
  let initialCache := getCachedEvents deploymentBlock stored
  let firstNotCachedBlock := initialCache.headers.endBlock + 1
  let isCacheValid := verifyCacheBlock initialCache finalizedBlockNumber
  if !isCacheValid then
    { cache := stored, insertedLastValidEvent := none
      didRootCheck := false, newEventsCount := 0
      integrityErrorLogged := false }
  else
    let chunks := chunkRanges firstNotCachedBlock finalizedBlockNumber
    let loopResult := chunks.foldl (updateEventsCacheStep fetchEventsFallOver)
      { cache := { headers := initialCache.headers, data := stored.data
                   lastValidEvent := stored.lastValidEvent }
        newEventsCount := 0, lastIndexedEvent := none }
    let isRootValid := verifyUpdatedEvents finalizedBlockHash
    let inserted :=
      if isRootValid then loopResult.lastIndexedEvent else none
    { cache := { loopResult.cache with
        lastValidEvent :=
          match inserted with
          | some e => some e
          | none => loopResult.cache.lastValidEvent }
      insertedLastValidEvent := inserted
      didRootCheck := true
      newEventsCount := loopResult.newEventsCount
      integrityErrorLogged := !isRootValid }

theorem updateLoop_lastValidEvent
    (fetch : Nat → Nat → List VerifiedDepositEvent)
    (chunks : List (Nat × Nat)) :
    ∀ acc : UpdateLoopAcc,
      (chunks.foldl (updateEventsCacheStep fetch) acc).cache.lastValidEvent =
        acc.cache.lastValidEvent := by
  induction chunks with
  | nil => intro acc; rfl
  | cons c rest ih =>
    intro acc
    rw [List.foldl_cons, ih]
    rfl

theorem updateLoop_lastIndexed_iff
    (fetch : Nat → Nat → List VerifiedDepositEvent)
    (chunks : List (Nat × Nat)) :
    ∀ acc : UpdateLoopAcc,
      (acc.lastIndexedEvent.isSome = true ↔ 0 < acc.newEventsCount) →
      ((chunks.foldl (updateEventsCacheStep fetch) acc).lastIndexedEvent.isSome
          = true ↔
        0 < (chunks.foldl (updateEventsCacheStep fetch) acc).newEventsCount) := by
  induction chunks with
  | nil => intro acc h; exact h
  | cons c rest ih =>
    intro acc h
    rw [List.foldl_cons]
    refine ih _ ?_
    unfold updateEventsCacheStep
    rcases hlast : (fetch c.1 c.2).getLast? with _ | e
    · have hnil : fetch c.1 c.2 = [] := by
        rwa [List.getLast?_eq_none_iff] at hlast
      simp [hlast, hnil, h]
    · have hne : fetch c.1 c.2 ≠ [] := by
        intro hc
        rw [hc] at hlast
        exact Option.noConfusion hlast
      have hlen : 0 < (fetch c.1 c.2).length := List.length_pos.mpr hne
      simp [hlast]
      omega

/-- **C7.**  In every run of `updateEventsCache`, `insertLastValidEvent`
is called (advancing the stored `lastValidEvent`) iff the root comparison
against `get_deposit_root` at the finalized block hash was reached and
succeeded and at least one new event was indexed in this run; when the
root comparison fails, the stored `lastValidEvent` is left unchanged and
the integrity-check error is logged, while the function returns normally
(the daemon keeps running). -/
theorem updateEventsCache_lastValid_spec
    (fetch : Nat → Nat → List VerifiedDepositEvent)
    (rootCheck : String → Bool) (deploymentBlock : Nat)
    (stored : VerifiedDepositEventsCache)
    (finalizedBlockNumber : Nat) (finalizedBlockHash : String) :
    ((updateEventsCache fetch rootCheck deploymentBlock stored
        finalizedBlockNumber finalizedBlockHash).insertedLastValidEvent.isSome
        = true ↔
      ((updateEventsCache fetch rootCheck deploymentBlock stored
          finalizedBlockNumber finalizedBlockHash).didRootCheck = true ∧
        rootCheck finalizedBlockHash = true ∧
        0 < (updateEventsCache fetch rootCheck deploymentBlock stored
          finalizedBlockNumber finalizedBlockHash).newEventsCount)) ∧
    ((updateEventsCache fetch rootCheck deploymentBlock stored
        finalizedBlockNumber finalizedBlockHash).didRootCheck = true →
      rootCheck finalizedBlockHash = false →
      (updateEventsCache fetch rootCheck deploymentBlock stored
        finalizedBlockNumber finalizedBlockHash).cache.lastValidEvent =
        stored.lastValidEvent ∧
      (updateEventsCache fetch rootCheck deploymentBlock stored
        finalizedBlockNumber finalizedBlockHash).integrityErrorLogged =
        true) := by
  by_cases hvalid : verifyCacheBlock (getCachedEvents deploymentBlock stored)
      finalizedBlockNumber = true
  · have hloopLast := updateLoop_lastValidEvent fetch
      (chunkRanges ((getCachedEvents deploymentBlock stored).headers.endBlock
        + 1) finalizedBlockNumber)
      { cache := { headers := (getCachedEvents deploymentBlock stored).headers
                   data := stored.data
                   lastValidEvent := stored.lastValidEvent }
        newEventsCount := 0, lastIndexedEvent := none }
    have hloopIdx := updateLoop_lastIndexed_iff fetch
      (chunkRanges ((getCachedEvents deploymentBlock stored).headers.endBlock
        + 1) finalizedBlockNumber)
      { cache := { headers := (getCachedEvents deploymentBlock stored).headers
                   data := stored.data
                   lastValidEvent := stored.lastValidEvent }
        newEventsCount := 0, lastIndexedEvent := none }
      (by simp)
    by_cases hroot : rootCheck finalizedBlockHash = true
    · constructor
      · simp only [updateEventsCache, hvalid, Bool.not_true,
          Bool.false_eq_true, if_false, hroot, if_true]
        simpa using hloopIdx
      · intro _ hfalse
        rw [hroot] at hfalse
        exact absurd hfalse (by simp)
    · have hrootf : rootCheck finalizedBlockHash = false :=
        Bool.eq_false_iff.mpr hroot
      constructor
      · simp only [updateEventsCache, hvalid, Bool.not_true,
          Bool.false_eq_true, if_false, hrootf]
        simp [hroot]
      · intro _ _
        simp only [updateEventsCache, hvalid, Bool.not_true,
          Bool.false_eq_true, if_false, hrootf]
        simp [hloopLast]
  · have hvf : verifyCacheBlock (getCachedEvents deploymentBlock stored)
        finalizedBlockNumber = false := Bool.eq_false_iff.mpr hvalid
    constructor
    · simp [updateEventsCache, hvf]
    · intro hdid
      simp only [updateEventsCache, hvf, Bool.not_false, if_true] at hdid
      exact absurd hdid (by simp)

/-- **C7, witness.**  A run over blocks 1..1 that indexes one event but
fails the root comparison: `lastValidEvent` stays unchanged and the
integrity error is logged. -/
theorem updateEventsCache_lastValid_spec_witness :
    (updateEventsCache (fun _ _ => [ceEventLido]) (fun _ => false) 0
        { headers := { startBlock := 0, endBlock := 0 }
          data := [], lastValidEvent := none } 1 "fh").cache.lastValidEvent =
      ({ headers := { startBlock := 0, endBlock := 0 }
         data := [], lastValidEvent := none } :
          VerifiedDepositEventsCache).lastValidEvent ∧
    (updateEventsCache (fun _ _ => [ceEventLido]) (fun _ => false) 0
        { headers := { startBlock := 0, endBlock := 0 }
          data := [], lastValidEvent := none } 1
        "fh").integrityErrorLogged = true :=
  (updateEventsCache_lastValid_spec (fun _ _ => [ceEventLido])
      (fun _ => false) 0
      { headers := { startBlock := 0, endBlock := 0 }
        data := [], lastValidEvent := none } 1 "fh").2 rfl rfl

/-- Modelled from the spec: the `@OneAtTime` decorator
(`common/decorators`, not among the provided sources) is a per-method
atomic flag (§5): an invocation that begins while the flag is set returns
immediately with no side effects; the flag stays set while the first
invocation's transaction is pending and is cleared when it completes.
The state tracks the flag and how many times the contract method
`pauseDeposits` has been submitted. -/
structure PauseGuardState where
  inFlight : Bool
  txSubmissions : Nat
  deriving Repr, DecidableEq

/-- Beginning of a guarded `SecurityService.pauseDepositsV2` invocation:
if a previous invocation is still in flight, it is a no-op; otherwise the
flag is set and the contract method is called.  The returned `Bool` says
whether the contract method was invoked by this call. -/
def pauseDepositsV2Start (s : PauseGuardState) : PauseGuardState × Bool :=
  if s.inFlight then (s, false)
  else ({ inFlight := true, txSubmissions := s.txSubmissions + 1 }, true)

/-- Completion of the pending invocation (the transaction's `wait()`
resolved): the flag is cleared. -/
def pauseDepositsV2Finish (s : PauseGuardState) : PauseGuardState :=
  { s with inFlight := false }

/-- **C8.**  A `pauseDepositsV2` invocation that begins while a previous
one is still in flight returns immediately with no side effects (the
state is unchanged and the contract method is not called); consequently,
in the overlapping schedule first-start, second-start, first-finish the
contract method is called exactly once. -/
theorem oneAtTime_pauseDeposits_once :
    (∀ s : PauseGuardState, s.inFlight = true →
      pauseDepositsV2Start s = (s, false)) ∧
    (∀ n : Nat,
      (pauseDepositsV2Start { inFlight := false, txSubmissions := n }).2 =
        true ∧
      pauseDepositsV2Start
          (pauseDepositsV2Start { inFlight := false, txSubmissions := n }).1 =
        ((pauseDepositsV2Start
            { inFlight := false, txSubmissions := n }).1, false) ∧
      (pauseDepositsV2Finish
          (pauseDepositsV2Start
            (pauseDepositsV2Start
              { inFlight := false, txSubmissions := n }).1).1).txSubmissions =
        n + 1) := by
  constructor
  · intro s hs
    simp [pauseDepositsV2Start, hs]
  · intro n
    refine ⟨rfl, ?_, rfl⟩
    simp [pauseDepositsV2Start]

/-- **C8, witness.**  The overlapping schedule starting from an idle state
with no prior submissions. -/
theorem oneAtTime_pauseDeposits_once_witness :
    pauseDepositsV2Start
        { inFlight := true, txSubmissions := 5 } =
      ({ inFlight := true, txSubmissions := 5 }, false) ∧
    (pauseDepositsV2Finish
        (pauseDepositsV2Start
          (pauseDepositsV2Start
            { inFlight := false, txSubmissions := 0 }).1).1).txSubmissions =
      1 :=
  ⟨oneAtTime_pauseDeposits_once.1 { inFlight := true, txSubmissions := 5 }
      rfl,
   (oneAtTime_pauseDeposits_once.2 0).2.2⟩

/-- One entry of the BLS validation cache
(`SignatureValidationCacheEntry`): the deposit signature and withdrawal
credential the cached verdict was computed for, and the verdict. -/
structure KeyValidationCacheEntry where
  depositSignature : String
  wc : String
  valid : Bool
  deriving Repr, DecidableEq

/-- Modelled from the spec:
`KeysValidationService` (§4.6) is not among the provided sources (only its
test `keys-validation.spec.ts` is); the cache is keyed by pubkey, and a
key needs revalidation exactly when it has no entry or its cached
`(depositSignature, wc)` differs from the current pair. -/
def needsRevalidation (cache : String → Option KeyValidationCacheEntry)
    (wc : String) (key : RegistryKey) : Bool :=
  match cache key.key with
  | some entry =>
    !(entry.depositSignature == key.depositSignature && entry.wc == wc)
  | none => true

/-- Modelled from the spec (§4.6): the verdict used for a key in one call
— the cached `valid` when the cached `(depositSignature, wc)` matches,
otherwise the fresh BLS verification outcome (`validity`, the abstracted
`validateKeys` verdict). -/
def keyCurrentValid (validity : RegistryKey → String → Bool)
    (cache : String → Option KeyValidationCacheEntry) (wc : String)
    (key : RegistryKey) : Bool :=
  match cache key.key with
  | some entry =>
    if entry.depositSignature == key.depositSignature && entry.wc == wc then
      entry.valid
    else validity key wc
  | none => validity key wc

/-- Cache update for one revalidated key. -/
def cacheInsert (validity : RegistryKey → String → Bool) (wc : String)
    (c : String → Option KeyValidationCacheEntry) (key : RegistryKey) :
    String → Option KeyValidationCacheEntry :=
  fun p =>
    if p == key.key then
      some { depositSignature := key.depositSignature, wc := wc
             valid := validity key wc }
    else c p

/-- Observable outcome of one `KeysValidationService.getInvalidKeys`
call: the returned invalid keys, the cache afterwards, and the exact list
of keys handed to the underlying `validateKeys` verifier. -/
structure KeysValidationResult where
  invalidKeys : List RegistryKey
  cache : String → Option KeyValidationCacheEntry
  validatedKeys : List RegistryKey

/-- Modelled from the spec (§4.6, pinned by `keys-validation.spec.ts`):
`getInvalidKeys(keys, wc)` hands to `validateKeys` precisely the keys
whose `(depositSignature, wc)` differs from their cache entry, updates the
cache with the fresh verdicts, and returns the keys whose verdict is
`false`. -/
def getInvalidKeys (validity : RegistryKey → String → Bool)
    (cache : String → Option KeyValidationCacheEntry)
    (keys : List RegistryKey) (wc : String) : KeysValidationResult :=
  let keysForValidation := keys.filter (needsRevalidation cache wc)
  let newCache := keysForValidation.foldl (cacheInsert validity wc) cache
  { invalidKeys := keys.filter (fun k => !(keyCurrentValid validity cache wc k))
    cache := newCache
    validatedKeys := keysForValidation }

theorem foldl_cacheInsert_no_key (validity : RegistryKey → String → Bool)
    (wc : String) (l : List RegistryKey) :
    ∀ (c : String → Option KeyValidationCacheEntry) (p : String),
      (∀ k ∈ l, k.key ≠ p) →
      (l.foldl (cacheInsert validity wc) c) p = c p := by
  induction l with
  | nil => intro c p _; rfl
  | cons k0 rest ih =>
    intro c p h
    rw [List.foldl_cons, ih _ p (fun k hk => h k (List.mem_cons_of_mem _ hk))]
    have hne : (p == k0.key) = false := by
      simp only [beq_eq_false_iff_ne, ne_eq]
      exact fun hq => h k0 (List.mem_cons_self _ _) hq.symm
    simp [cacheInsert, hne]

theorem foldl_cacheInsert_unique_key (validity : RegistryKey → String → Bool)
    (wc : String) (l : List RegistryKey) :
    ∀ (c : String → Option KeyValidationCacheEntry) (k : RegistryKey),
      k ∈ l → (∀ k2 ∈ l, k2.key = k.key → k2 = k) →
      (l.foldl (cacheInsert validity wc) c) k.key =
        some { depositSignature := k.depositSignature, wc := wc
               valid := validity k wc } := by
  induction l with
  | nil => intro c k hk _; cases hk
  | cons k0 rest ih =>
    intro c k hk huniq
    rw [List.foldl_cons]
    by_cases hrest : k ∈ rest
    · exact ih _ k hrest (fun k2 h2 => huniq k2 (List.mem_cons_of_mem _ h2))
    · have hk0 : k = k0 := by
        rcases List.mem_cons.mp hk with h | h
        · exact h
        · exact absurd h hrest
      have hnone : ∀ k2 ∈ rest, k2.key ≠ k.key := by
        intro k2 h2 hkey
        have h3 := huniq k2 (List.mem_cons_of_mem _ h2) hkey
        rw [h3] at h2
        exact hrest h2
      rw [foldl_cacheInsert_no_key validity wc rest _ _ hnone, ← hk0]
      simp [cacheInsert]

theorem keyCurrentValid_of_needsRevalidation
    (validity : RegistryKey → String → Bool)
    (cache : String → Option KeyValidationCacheEntry) (wc : String)
    (k : RegistryKey) (h : needsRevalidation cache wc k = true) :
    keyCurrentValid validity cache wc k = validity k wc := by
  rcases hc : cache k.key with _ | e
  · simp [keyCurrentValid, hc]
  · simp only [needsRevalidation, hc] at h
    have hcond : (e.depositSignature == k.depositSignature && e.wc == wc) =
        false := by
      cases hb : e.depositSignature == k.depositSignature && e.wc == wc
      · rfl
      · rw [hb] at h
        simp at h
    simp [keyCurrentValid, hc, hcond]

theorem cacheHit_of_not_needsRevalidation
    (validity : RegistryKey → String → Bool)
    (cache : String → Option KeyValidationCacheEntry) (wc : String)
    (k : RegistryKey) (h : needsRevalidation cache wc k = false) :
    ∃ e, cache k.key = some e ∧
      e.depositSignature = k.depositSignature ∧ e.wc = wc ∧
      keyCurrentValid validity cache wc k = e.valid := by
  rcases hc : cache k.key with _ | e
  · simp only [needsRevalidation, hc] at h
    exact absurd h (by simp)
  · simp only [needsRevalidation, hc] at h
    have hcond : (e.depositSignature == k.depositSignature && e.wc == wc) =
        true := by
      cases hb : e.depositSignature == k.depositSignature && e.wc == wc
      · rw [hb] at h
        simp at h
      · rfl
    have hcond2 := hcond
    rw [Bool.and_eq_true] at hcond2
    obtain ⟨h1, h2⟩ := hcond2
    refine ⟨e, rfl, by simpa using h1, by simpa using h2, ?_⟩
    simp [keyCurrentValid, hc, hcond]

theorem getInvalidKeys_cache_lookup (validity : RegistryKey → String → Bool)
    (cache : String → Option KeyValidationCacheEntry)
    (keys : List RegistryKey) (wc : String)
    (hnd : (keys.map RegistryKey.key).Nodup) (k : RegistryKey)
    (hk : k ∈ keys) :
    ∃ entry, (getInvalidKeys validity cache keys wc).cache k.key =
        some entry ∧
      entry.depositSignature = k.depositSignature ∧ entry.wc = wc ∧
      entry.valid = keyCurrentValid validity cache wc k := by
  have hinj := List.inj_on_of_nodup_map hnd
  by_cases hval : needsRevalidation cache wc k = true
  · have hkmem : k ∈ keys.filter (needsRevalidation cache wc) :=
      List.mem_filter.mpr ⟨hk, hval⟩
    have huniq : ∀ k2 ∈ keys.filter (needsRevalidation cache wc),
        k2.key = k.key → k2 = k := by
      intro k2 h2 hkey
      exact hinj (List.mem_filter.mp h2).1 hk hkey
    refine ⟨_, foldl_cacheInsert_unique_key validity wc _ cache k hkmem huniq,
      rfl, rfl, ?_⟩
    exact (keyCurrentValid_of_needsRevalidation validity cache wc k hval).symm
  · have hvalf : needsRevalidation cache wc k = false :=
      Bool.eq_false_iff.mpr hval
    obtain ⟨e, hc, h1, h2, h3⟩ :=
      cacheHit_of_not_needsRevalidation validity cache wc k hvalf
    have hnokey : ∀ k2 ∈ keys.filter (needsRevalidation cache wc),
        k2.key ≠ k.key := by
      intro k2 h2 hkey
      have hk2 := List.mem_filter.mp h2
      have hk2k : k2 = k := hinj hk2.1 hk hkey
      rw [hk2k] at hk2
      rw [hk2.2] at hvalf
      exact Bool.noConfusion hvalf
    have hlook : (getInvalidKeys validity cache keys wc).cache k.key =
        cache k.key :=
      foldl_cacheInsert_no_key validity wc _ cache k.key hnokey
    exact ⟨e, by rw [hlook, hc], h1, h2, h3.symm⟩

theorem needsRevalidation_after (validity : RegistryKey → String → Bool)
    (cache : String → Option KeyValidationCacheEntry)
    (keys : List RegistryKey) (wc : String)
    (hnd : (keys.map RegistryKey.key).Nodup) (k : RegistryKey)
    (hk : k ∈ keys) :
    needsRevalidation (getInvalidKeys validity cache keys wc).cache wc k =
      false := by
  obtain ⟨entry, hc, h1, h2, _⟩ :=
    getInvalidKeys_cache_lookup validity cache keys wc hnd k hk
  simp [needsRevalidation, hc, h1, h2]

theorem keyCurrentValid_after (validity : RegistryKey → String → Bool)
    (cache : String → Option KeyValidationCacheEntry)
    (keys : List RegistryKey) (wc : String)
    (hnd : (keys.map RegistryKey.key).Nodup) (k : RegistryKey)
    (hk : k ∈ keys) :
    keyCurrentValid validity (getInvalidKeys validity cache keys wc).cache
        wc k = keyCurrentValid validity cache wc k := by
  obtain ⟨entry, hc, h1, h2, h3⟩ :=
    getInvalidKeys_cache_lookup validity cache keys wc hnd k hk
  simp [keyCurrentValid, hc, h1, h2, h3]

/-- **C6.**  `validateKeys` is always invoked with precisely the keys
whose `(depositSignature, wc)` pair differs from the cache entry for
their pubkey; hence an immediately repeated `getInvalidKeys(K, wc)` call
invokes `validateKeys` with the empty list and returns the same
invalid-key set, and if exactly one key's `depositSignature` changed
between the calls, `validateKeys` is invoked with exactly that key. -/
theorem getInvalidKeys_cache_semantics :
    (∀ (validity : RegistryKey → String → Bool)
      (cache : String → Option KeyValidationCacheEntry)
      (keys : List RegistryKey) (wc : String),
      (getInvalidKeys validity cache keys wc).validatedKeys =
        keys.filter (needsRevalidation cache wc)) ∧
    (∀ (validity : RegistryKey → String → Bool)
      (cache : String → Option KeyValidationCacheEntry)
      (keys : List RegistryKey) (wc : String),
      (keys.map RegistryKey.key).Nodup →
      (getInvalidKeys validity (getInvalidKeys validity cache keys wc).cache
          keys wc).validatedKeys = [] ∧
      (getInvalidKeys validity (getInvalidKeys validity cache keys wc).cache
          keys wc).invalidKeys =
        (getInvalidKeys validity cache keys wc).invalidKeys) ∧
    (∀ (validity : RegistryKey → String → Bool)
      (cache : String → Option KeyValidationCacheEntry)
      (pre post : List RegistryKey) (k : RegistryKey) (s2 : String)
      (wc : String),
      ((pre ++ k :: post).map RegistryKey.key).Nodup →
      s2 ≠ k.depositSignature →
      (getInvalidKeys validity
          (getInvalidKeys validity cache (pre ++ k :: post) wc).cache
          (pre ++ { k with depositSignature := s2 } :: post)
          wc).validatedKeys =
        [{ k with depositSignature := s2 }]) := by
  refine ⟨fun _ _ _ _ => rfl, ?_, ?_⟩
  · intro validity cache keys wc hnd
    constructor
    · show keys.filter
          (needsRevalidation (getInvalidKeys validity cache keys wc).cache
            wc) = []
      rw [List.filter_eq_nil_iff]
      intro a ha
      simp [needsRevalidation_after validity cache keys wc hnd a ha]
    · show keys.filter (fun k => !(keyCurrentValid validity
          (getInvalidKeys validity cache keys wc).cache wc k)) =
        keys.filter (fun k => !(keyCurrentValid validity cache wc k))
      apply List.filter_congr
      intro a ha
      rw [keyCurrentValid_after validity cache keys wc hnd a ha]
  · intro validity cache pre post k s2 wc hnd hs2
    have hkmem : k ∈ pre ++ k :: post := by simp
    obtain ⟨entry, hc, h1, h2, _⟩ :=
      getInvalidKeys_cache_lookup validity cache (pre ++ k :: post) wc hnd
        k hkmem
    have hkeyeq : ({ k with depositSignature := s2 } : RegistryKey).key =
        k.key := rfl
    have hk2 : needsRevalidation
        (getInvalidKeys validity cache (pre ++ k :: post) wc).cache wc
        { k with depositSignature := s2 } = true := by
      have hsig : (entry.depositSignature == s2) = false := by
        rw [h1]
        simp only [beq_eq_false_iff_ne, ne_eq]
        exact fun h => hs2 h.symm
      simp [needsRevalidation, hkeyeq, hc, hsig]
    have hpre : ∀ j ∈ pre, needsRevalidation
        (getInvalidKeys validity cache (pre ++ k :: post) wc).cache wc j =
        false := by
      intro j hj
      exact needsRevalidation_after validity cache (pre ++ k :: post) wc hnd
        j (List.mem_append.mpr (Or.inl hj))
    have hpost : ∀ j ∈ post, needsRevalidation
        (getInvalidKeys validity cache (pre ++ k :: post) wc).cache wc j =
        false := by
      intro j hj
      exact needsRevalidation_after validity cache (pre ++ k :: post) wc hnd
        j (by simp [hj])
    show (pre ++ { k with depositSignature := s2 } :: post).filter
        (needsRevalidation
          (getInvalidKeys validity cache (pre ++ k :: post) wc).cache wc) =
      [{ k with depositSignature := s2 }]
    rw [List.filter_append, List.filter_cons_of_pos hk2]
    rw [List.filter_eq_nil_iff.mpr (fun a ha => by simp [hpre a ha]),
      List.filter_eq_nil_iff.mpr (fun a ha => by simp [hpost a ha])]
    rfl

/-- Fixture registry key A for the cache-semantics witness. -/
def cwKeyA : RegistryKey :=
  { key := "pkA", depositSignature := "sA", operatorIndex := 0
    used := false, index := 0, moduleAddress := "m" }

/-- Fixture registry key B for the cache-semantics witness. -/
def cwKeyB : RegistryKey :=
  { key := "pkB", depositSignature := "sB", operatorIndex := 0
    used := false, index := 1, moduleAddress := "m" }

/-- Fixture BLS verdict: a key verifies iff its signature is `sA`. -/
def cwValidity : RegistryKey → String → Bool :=
  fun k _ => k.depositSignature == "sA"

/-- **C6, witness.**  Two concrete scenarios from an empty cache: a
repeated identical call validates nothing and returns the same invalid
set, and changing one key's signature validates exactly that key. -/
theorem getInvalidKeys_cache_semantics_witness :
    ((getInvalidKeys cwValidity
        (getInvalidKeys cwValidity (fun _ => none) [cwKeyA, cwKeyB]
          "w").cache [cwKeyA, cwKeyB] "w").validatedKeys = [] ∧
      (getInvalidKeys cwValidity
        (getInvalidKeys cwValidity (fun _ => none) [cwKeyA, cwKeyB]
          "w").cache [cwKeyA, cwKeyB] "w").invalidKeys =
        (getInvalidKeys cwValidity (fun _ => none) [cwKeyA, cwKeyB]
          "w").invalidKeys) ∧
    (getInvalidKeys cwValidity
        (getInvalidKeys cwValidity (fun _ => none) ([cwKeyA] ++ cwKeyB :: [])
          "w").cache
        ([cwKeyA] ++ { cwKeyB with depositSignature := "sNew" } :: [])
        "w").validatedKeys =
      [{ cwKeyB with depositSignature := "sNew" }] :=
  ⟨getInvalidKeys_cache_semantics.2.1 cwValidity (fun _ => none)
      [cwKeyA, cwKeyB] "w" (by decide),
   getInvalidKeys_cache_semantics.2.2 cwValidity (fun _ => none) [cwKeyA] []
      cwKeyB "sNew" "w" (by decide) (by decide)⟩
